import Mathlib

/-!
Shallow embedding of the reconciliation core of `seller.py` (Ozon) and
`market.py` (Yandex Market): the quantity/price normalizers, the batcher
`divide`, and the `create_stocks` / `create_prices` reconcilers, together
with theorems checking the claims of the specification about them.

Remnant rows are modelled by their three used fields (`Код`, `Количество`,
`Цена`), all strings as they come out of the spreadsheet. Python lists are
Lean lists; in-place mutation of `offer_ids` is modelled by also returning
the final value of the list (the `_run` variants). Fallible code — a Python
`int(...)` call raising `ValueError` — is modelled with `Option`.
-/

namespace Py

/-- Accumulator pass of the base-10 digit parser: consumes `cs`, failing on
the first non-digit character (models the digits part of Python `int`). -/
def digitsVal : List Char → Nat → Option Nat
  | [], acc => some acc
  | c :: cs, acc =>
    if c.isDigit then digitsVal cs (acc * 10 + (c.toNat - '0'.toNat)) else none

/-- Base-10 integer parse of a character list: optional sign followed by at
least one digit; `none` otherwise (models Python `int(str)` raising
`ValueError` on malformed text). -/
def intOfChars : List Char → Option Int
  | [] => none
  | c :: cs =>
    if c = '-' then
      if cs = [] then none else (digitsVal cs 0).map (fun n => -(n : Int))
    else if c = '+' then
      if cs = [] then none else (digitsVal cs 0).map (fun n => (n : Int))
    else
      (digitsVal (c :: cs) 0).map (fun n => (n : Int))

/-- Model of the Python builtin `int(s)` on strings: `some` of the parsed value, or
`none` when the call would raise `ValueError`. -/
def py_int (s : String) : Option Int :=
  intOfChars s.data

/-- Spec-side shape predicate: the character list is an optional sign
followed by one or more decimal digits. -/
def isIntLiteralChars : List Char → Bool
  | [] => false
  | c :: cs =>
    if c = '-' || c = '+' then !cs.isEmpty && cs.all Char.isDigit
    else (c :: cs).all Char.isDigit

/-- Spec-side shape predicate on strings: base-10 integer literal. -/
def isIntLiteral (s : String) : Bool :=
  isIntLiteralChars s.data

end Py

/-- One upstream remnant row, restricted to the three fields the code reads:
`code` is `Код`, `quantity` is `Количество`, `price` is `Цена` (all taken as
the strings produced by the `str(...)` coercions in the code). -/
structure Remnant where
  code : String
  quantity : String
  price : String
deriving DecidableEq

namespace Seller

/-- Characters of `price.split(".")[0]`: everything strictly before the
first `'.'` of the input (the whole input when there is no dot). -/
def beforeDot : List Char → List Char
  | [] => []
  | c :: cs => if c = '.' then [] else c :: beforeDot cs

/-- Embeds `seller.price_conversion` (seller.py lines 288-300):
`re.sub("[^0-9]", "", price.split(".")[0])`. -/
def price_conversion (price : String) : String :=
  String.mk ((beforeDot price.data).filter Char.isDigit)

/-- Embeds `seller.divide` (seller.py lines 303-321): the slices
`lst[i : i + n]` for `i = 0, n, 2n, ...`. The `n = 0` case is vacuous: the
spec only constrains `n > 0` (the Python `range` raises on step 0). -/
def divide : List α → Nat → List (List α)
  | [], _ => []
  | _ :: _, 0 => []
  | x :: xs, n + 1 => ((x :: xs).take (n + 1)) :: divide (xs.drop n) (n + 1)
termination_by l _ => l.length
decreasing_by simp [List.length_drop]; omega

/-- The quantity rule inlined in `seller.create_stocks` (seller.py lines
249-255): `">10"` means 100, `"1"` means 0, anything else is parsed with
`int(...)`. -/
def normalize_quantity (count : String) : Option Int :=
  if count = ">10" then some 100
  else if count = "1" then some 0
  else Py.py_int count

/-- One Ozon stock record as built by `seller.create_stocks`. -/
structure StockEntry where
  offer_id : String
  stock : Int
deriving DecidableEq

/-- One Ozon price record as built by `seller.create_prices`. -/
structure PriceEntry where
  auto_action_enabled : String
  currency_code : String
  offer_id : String
  old_price : String
  price : String
deriving DecidableEq

end Seller

/-- The matching loop shared by the `create_stocks` of both files (seller.py lines
247-257, market.py lines 264-286): walk the remnants in order; whenever the
code of the current row is in `offer_ids`, normalize its quantity with `norm`,
emit `mk code stock`, and remove the code from `offer_ids` (Python
`list.remove`: first occurrence). Returns the emitted entries in input order
together with the final (drained) `offer_ids`; `none` models `int(...)`
raising on a malformed quantity. The two files differ only in `norm` and in
the record shape `mk`. -/
def stocksLoop (norm : String → Option Int) (mk : String → Int → ε) :
    List Remnant → List String → Option (List ε × List String)
  | [], offer_ids => some ([], offer_ids)
  | w :: ws, offer_ids =>
    if w.code ∈ offer_ids then
      match norm w.quantity with
      | none => none
      | some stock =>
        match stocksLoop norm mk ws (offer_ids.erase w.code) with
        | none => none
        | some (entries, rest) => some (mk w.code stock :: entries, rest)
    else
      stocksLoop norm mk ws offer_ids

namespace Seller

/-- Embeds `seller.create_stocks` (seller.py lines 234-261), returning both
the stock list and the final state of the mutated `offer_ids` list: matched
entries from the loop, then a zero-stock entry for every remaining offer id. -/
def create_stocks_run (watch_remnants : List Remnant) (offer_ids : List String) :
    Option (List StockEntry × List String) :=
  match stocksLoop normalize_quantity (fun code stock => ⟨code, stock⟩)
      watch_remnants offer_ids with
  | none => none
  | some (matched, remaining) =>
    some (matched ++ remaining.map (fun offer_id => ⟨offer_id, 0⟩), remaining)

/-- The stock list `seller.create_stocks` returns. -/
def create_stocks (watch_remnants : List Remnant) (offer_ids : List String) :
    Option (List StockEntry) :=
  (create_stocks_run watch_remnants offer_ids).map Prod.fst

/-- Embeds `seller.create_prices` (seller.py lines 264-285), threading the
`offer_ids` list through as state: the body reads it but never mutates it.
Fields of each record: `auto_action_enabled = "UNKNOWN"`,
`currency_code = "RUB"`, `offer_id`, `old_price = "0"`, `price`. -/
def create_prices_run : List Remnant → List String → List PriceEntry × List String
  | [], offer_ids => ([], offer_ids)
  | w :: ws, offer_ids =>
    if w.code ∈ offer_ids then
      let rest := create_prices_run ws offer_ids
      (⟨"UNKNOWN", "RUB", w.code, "0", price_conversion w.price⟩ :: rest.1, rest.2)
    else
      create_prices_run ws offer_ids

/-- The price list `seller.create_prices` returns. -/
def create_prices (watch_remnants : List Remnant) (offer_ids : List String) :
    List PriceEntry :=
  (create_prices_run watch_remnants offer_ids).1

end Seller

namespace Market

/-- The quantity rule inlined in `market.create_stocks` (market.py lines
266-272) — textually the same rule as the seller one. -/
def normalize_quantity (count : String) : Option Int :=
  if count = ">10" then some 100
  else if count = "1" then some 0
  else Py.py_int count

/-- One item of a Yandex Market stock record: `count`, `type = "FIT"`,
`updatedAt = date`. -/
structure StockItem where
  count : Int
  type : String
  updatedAt : String
deriving DecidableEq

/-- One Yandex Market stock record as built by `market.create_stocks`. -/
structure StockEntry where
  sku : String
  warehouseId : String
  items : List StockItem
deriving DecidableEq

/-- The `price` sub-object of a Yandex Market price record. -/
structure PriceValue where
  value : Int
  currencyId : String
deriving DecidableEq

/-- One Yandex Market price record as built by `market.create_prices`. -/
structure PriceEntry where
  id : String
  price : PriceValue
deriving DecidableEq

/-- Embeds `market.create_stocks` (market.py lines 250-302); `date` is the
timestamp string captured once before the loop. Returns the stock list and
the final state of the mutated `offer_ids`. -/
def create_stocks_run (watch_remnants : List Remnant) (offer_ids : List String)
    (warehouse_id date : String) : Option (List StockEntry × List String) :=
  match stocksLoop normalize_quantity
      (fun code stock => ⟨code, warehouse_id, [⟨stock, "FIT", date⟩]⟩)
      watch_remnants offer_ids with
  | none => none
  | some (matched, remaining) =>
    some (matched ++ remaining.map (fun offer_id =>
      ⟨offer_id, warehouse_id, [⟨0, "FIT", date⟩]⟩), remaining)

/-- The stock list `market.create_stocks` returns. -/
def create_stocks (watch_remnants : List Remnant) (offer_ids : List String)
    (warehouse_id date : String) : Option (List StockEntry) :=
  (create_stocks_run watch_remnants offer_ids warehouse_id date).map Prod.fst

/-- Embeds `market.create_prices` (market.py lines 305-331), threading the
`offer_ids` list through as state (never mutated). The `value` field is
`int(price_conversion(...))`, which raises — modelled as `none` — when the
converted price is empty. -/
def create_prices_run : List Remnant → List String → Option (List PriceEntry) × List String
  | [], offer_ids => (some [], offer_ids)
  | w :: ws, offer_ids =>
    if w.code ∈ offer_ids then
      match Py.py_int (Seller.price_conversion w.price) with
      | none => (none, offer_ids)
      | some v =>
        match create_prices_run ws offer_ids with
        | (none, rest) => (none, rest)
        | (some ps, rest) => (some (⟨w.code, ⟨v, "RUR"⟩⟩ :: ps), rest)
    else
      create_prices_run ws offer_ids

/-- The price list `market.create_prices` returns (`none` when the Python
code would raise on a malformed price). -/
def create_prices (watch_remnants : List Remnant) (offer_ids : List String) :
    Option (List PriceEntry) :=
  (create_prices_run watch_remnants offer_ids).1

end Market

/-- Models the Python call `offer_ids.copy()`: a fresh list with the same elements. -/
def list_copy (l : List String) : List String := l

namespace Seller

/-- Batching at the call site in `seller.upload_prices` (seller.py line 337):
`divide(prices, 1000)`. -/
def upload_prices_batches (prices : List PriceEntry) : List (List PriceEntry) :=
  divide prices 1000

/-- Batching at the call site in `seller.upload_stocks` (seller.py line 356):
`divide(stocks, 100)`. -/
def upload_stocks_batches (stocks : List StockEntry) : List (List StockEntry) :=
  divide stocks 100

/-- Batching at the stock call site in `seller.main` (seller.py line 371):
`divide(stocks, 100)`. -/
def main_stock_batches (stocks : List StockEntry) : List (List StockEntry) :=
  divide stocks 100

/-- Batching at the price call site in `seller.main` (seller.py line 375):
`divide(prices, 900)`. -/
def main_price_batches (prices : List PriceEntry) : List (List PriceEntry) :=
  divide prices 900

end Seller

namespace Market

/-- Batching at the call site in `market.upload_prices` (market.py line 337):
`divide(prices, 500)`. -/
def upload_prices_batches (prices : List PriceEntry) : List (List PriceEntry) :=
  Seller.divide prices 500

/-- Batching at the call site in `market.upload_stocks` (market.py line 345):
`divide(stocks, 2000)`. -/
def upload_stocks_batches (stocks : List StockEntry) : List (List StockEntry) :=
  Seller.divide stocks 2000

/-- Batching at the stock call sites in `market.main` (market.py lines 367
and 376): `divide(stocks, 2000)`. -/
def main_stock_batches (stocks : List StockEntry) : List (List StockEntry) :=
  Seller.divide stocks 2000

/-- Statement-side device: re-stamps every item of a market stock record
with the timestamp `d`, leaving `sku`, `warehouseId`, `count` and `type`
unchanged. Two outputs of `market.create_stocks` agree up to the internally
captured `utcnow()` timestamp exactly when they are equal after `restamp`
with a common `d`. -/
def restamp (d : String) (e : StockEntry) : StockEntry :=
  ⟨e.sku, e.warehouseId, e.items.map (fun it => ⟨it.count, it.type, d⟩)⟩

end Market

/-! Helper lemmas about the Python `int` model. -/

theorem digitsVal_isSome (cs : List Char) (acc : Nat) :
    (Py.digitsVal cs acc).isSome = cs.all Char.isDigit := by
  induction cs generalizing acc with
  | nil => simp [Py.digitsVal]
  | cons c cs ih =>
    by_cases hc : c.isDigit
    · simp [Py.digitsVal, hc, ih]
    · simp [Py.digitsVal, hc]

theorem digitsVal_map_isSome (cs : List Char) (f : Nat → Int) :
    ((Py.digitsVal cs 0).map f).isSome = cs.all Char.isDigit := by
  have h := digitsVal_isSome cs 0
  cases hv : Py.digitsVal cs 0 <;> rw [hv] at h <;> simp_all

theorem py_int_isSome (s : String) : (Py.py_int s).isSome = Py.isIntLiteral s := by
  rw [Py.py_int, Py.isIntLiteral]
  cases s.data with
  | nil => simp [Py.intOfChars, Py.isIntLiteralChars]
  | cons c cs =>
    by_cases hminus : c = '-'
    · cases cs with
      | nil => simp [Py.intOfChars, Py.isIntLiteralChars, hminus]
      | cons d ds =>
        simp only [Py.intOfChars, Py.isIntLiteralChars, hminus]
        have h := digitsVal_isSome (d :: ds) 0
        cases hv : Py.digitsVal (d :: ds) 0 <;> rw [hv] at h <;> simp_all
    · by_cases hplus : c = '+'
      · cases cs with
        | nil => simp [Py.intOfChars, Py.isIntLiteralChars, hminus, hplus]
        | cons d ds =>
          simp only [Py.intOfChars, Py.isIntLiteralChars, hminus, hplus]
          have h := digitsVal_isSome (d :: ds) 0
          cases hv : Py.digitsVal (d :: ds) 0 <;> rw [hv] at h <;> simp_all
      · simp only [Py.intOfChars, Py.isIntLiteralChars, hminus, hplus]
        have h := digitsVal_isSome (c :: cs) 0
        cases hv : Py.digitsVal (c :: cs) 0 <;> rw [hv] at h <;> simp_all

/-- Claim C4: quantity normalization maps `">10"` to 100, `"1"` to 0, and any
other text to its base-10 integer value (e.g. `"7"` to 7), failing exactly
when the text is not a base-10 integer literal; both marketplace reconcilers
apply the same rule. -/
theorem claim_C4 :
    Seller.normalize_quantity ">10" = some 100 ∧
    Seller.normalize_quantity "1" = some 0 ∧
    Seller.normalize_quantity "7" = some 7 ∧
    Seller.normalize_quantity "watch" = none ∧
    (∀ raw : String, (Seller.normalize_quantity raw).isSome =
      (decide (raw = ">10") || decide (raw = "1") || Py.isIntLiteral raw)) ∧
    (∀ raw : String, Seller.normalize_quantity raw = Market.normalize_quantity raw) := by
  refine ⟨by decide, by decide, by decide, by decide, ?_, fun raw => rfl⟩
  intro raw
  by_cases h10 : raw = ">10"
  · simp [Seller.normalize_quantity, h10]
  · by_cases h1 : raw = "1"
    · simp [Seller.normalize_quantity, h10, h1]
    · simp [Seller.normalize_quantity, h10, h1, py_int_isSome]

/-! Helper lemmas about `price_conversion`. -/

theorem beforeDot_eq_takeWhile (cs : List Char) :
    Seller.beforeDot cs = cs.takeWhile (fun c => c != '.') := by
  induction cs with
  | nil => rfl
  | cons c cs ih =>
    by_cases hc : c = '.'
    · simp [Seller.beforeDot, List.takeWhile_cons, hc]
    · simp [Seller.beforeDot, List.takeWhile_cons, hc, ih]

/-- Claim C5: for every input string, `price_conversion` returns the portion
of the string before the first dot with every non-decimal-digit character
removed; in particular it maps the spec example price (5990 rubles, written
with an apostrophe thousands separator and a currency suffix) to `"5990"`,
and `"12.50"` to `"12"`. -/
theorem claim_C5 :
    (∀ s : String, Seller.price_conversion s =
      String.mk ((s.data.takeWhile (fun c => c != '.')).filter Char.isDigit)) ∧
    Seller.price_conversion "5\x27990.00 руб." = "5990" ∧
    Seller.price_conversion "12.50" = "12" := by
  refine ⟨?_, by decide, by decide⟩
  intro s
  rw [Seller.price_conversion, beforeDot_eq_takeWhile]

/-- Claim C9: `price_conversion` is total: it never fails, its result
contains only decimal digit characters, and on the empty string — or any
string with no digit before the first `'.'` — it returns the empty string. -/
theorem claim_C9 :
    (∀ s : String, ((Seller.price_conversion s).data.all Char.isDigit) = true) ∧
    Seller.price_conversion "" = "" ∧
    (∀ s : String, (Seller.beforeDot s.data).all (fun c => !c.isDigit) = true →
      Seller.price_conversion s = "") := by
  refine ⟨?_, by decide, ?_⟩
  · intro s
    rw [Seller.price_conversion]
    simp only [List.all_eq_true]
    intro c hc
    exact (List.mem_filter.mp hc).2
  · intro s hs
    rw [List.all_eq_true] at hs
    rw [Seller.price_conversion]
    have hnil : (Seller.beforeDot s.data).filter Char.isDigit = [] := by
      rw [List.filter_eq_nil_iff]
      intro c hc
      have := hs c hc
      simpa using this
    rw [hnil]

/-- Witness for claim C9 at the concrete string `"ab.5"`: no digit occurs
before the first dot, and the conversion returns the empty string. -/
theorem claim_C9_witness :
    (Seller.beforeDot ("ab.5" : String).data).all (fun c => !c.isDigit) = true ∧
    Seller.price_conversion "ab.5" = "" :=
  ⟨by decide, claim_C9.2.2 "ab.5" (by decide)⟩

/-! Helper lemmas about the batcher `divide`. -/

theorem divide_nil (n : Nat) : Seller.divide ([] : List α) n = [] := by
  simp [Seller.divide]

theorem divide_cons (x : α) (xs : List α) (n : Nat) :
    Seller.divide (x :: xs) (n + 1) =
      ((x :: xs).take (n + 1)) :: Seller.divide (xs.drop n) (n + 1) := by
  simp [Seller.divide]

theorem divide_eq_nil_iff (l : List α) (n : Nat) :
    Seller.divide l (n + 1) = [] ↔ l = [] := by
  cases l with
  | nil => simp [divide_nil]
  | cons x xs => simp [divide_cons]

theorem divide_flatten (l : List α) (n : Nat) (hn : 0 < n) :
    (Seller.divide l n).flatten = l := by
  induction l, n using Seller.divide.induct with
  | case1 n => simp [divide_nil]
  | case2 x xs => omega
  | case3 x xs n ih =>
    rw [divide_cons]
    rw [List.flatten_cons, ih (by omega)]
    rw [← List.drop_succ_cons (a := x)]
    exact List.take_append_drop (n + 1) (x :: xs)

theorem divide_chunk_bounds (l : List α) (n : Nat) :
    ∀ c ∈ Seller.divide l n, 1 ≤ c.length ∧ c.length ≤ n := by
  induction l, n using Seller.divide.induct with
  | case1 n => simp [divide_nil]
  | case2 x xs => simp [Seller.divide]
  | case3 x xs n ih =>
    intro c hc
    rw [divide_cons] at hc
    rcases List.mem_cons.mp hc with h | h
    · subst h
      constructor
      · simp [List.length_take]
      · simp [List.length_take]
    · exact ih c h

theorem divide_dropLast_length (l : List α) (n : Nat) :
    ∀ c ∈ (Seller.divide l (n + 1)).dropLast, c.length = n + 1 := by
  induction l, n + 1 using Seller.divide.induct with
  | case1 m => simp [divide_nil]
  | case2 x xs => simp [Seller.divide]
  | case3 x xs m ih =>
    intro c hc
    rw [divide_cons] at hc
    by_cases hrest : Seller.divide (xs.drop m) (m + 1) = []
    · rw [hrest] at hc
      simp at hc
    · rw [List.dropLast_cons_of_ne_nil hrest] at hc
      rcases List.mem_cons.mp hc with h | h
      · subst h
        have hxs : ¬ xs.drop m = [] := (Iff.not (divide_eq_nil_iff _ m)).mp hrest
        have hlen : m < xs.length := by
          rcases Nat.lt_or_ge m xs.length with hlt | hge
          · exact hlt
          · exact absurd (List.drop_eq_nil_iff.mpr hge) hxs
        simp [List.length_take]
        omega
      · exact ih c h

theorem divide_singleton (a : α) (n : Nat) : Seller.divide [a] (n + 1) = [[a]] := by
  simp [Seller.divide]

/-- Claim C6: for every list and every `n > 0`, `divide` yields contiguous,
non-overlapping chunks in original order whose concatenation is the input,
every chunk except possibly the last has length exactly `n`, every chunk has
length between 1 and `n`, an empty list yields zero chunks, and the
ten-element spec example splits by 3 into `[[1,2,3],[4,5,6],[7,8,9],[10]]`. -/
theorem claim_C6 :
    (∀ (α : Type) (lst : List α) (n : Nat), 0 < n →
      (Seller.divide lst n).flatten = lst ∧
      (∀ c ∈ (Seller.divide lst n).dropLast, c.length = n) ∧
      (∀ c ∈ Seller.divide lst n, 1 ≤ c.length ∧ c.length ≤ n)) ∧
    Seller.divide ([] : List Nat) 5 = [] ∧
    Seller.divide [1, 2, 3, 4, 5, 6, 7, 8, 9, 10] 3 =
      [[1, 2, 3], [4, 5, 6], [7, 8, 9], [10]] := by
  refine ⟨?_, divide_nil 5, by simp [Seller.divide]⟩
  intro α lst n hn
  obtain ⟨m, rfl⟩ : ∃ m, n = m + 1 := ⟨n - 1, by omega⟩
  exact ⟨divide_flatten lst (m + 1) hn, divide_dropLast_length lst m,
    divide_chunk_bounds lst (m + 1)⟩

/-- Witness for claim C6 at the concrete input `[10, 20, 30]` with chunk
size 2. -/
theorem claim_C6_witness :
    0 < 2 ∧
    ((Seller.divide [10, 20, 30] 2).flatten = [10, 20, 30] ∧
      (∀ c ∈ (Seller.divide [10, 20, 30] 2).dropLast, c.length = 2) ∧
      (∀ c ∈ Seller.divide [10, 20, 30] 2, 1 ≤ c.length ∧ c.length ≤ 2)) :=
  ⟨by decide, claim_C6.1 Nat [10, 20, 30] 2 (by decide)⟩

/-- A fixed Ozon price record used to exercise the batching call sites. -/
def samplePrice : Seller.PriceEntry :=
  ⟨"UNKNOWN", "RUB", "136748", "0", "5990"⟩

/-- Counterexample to claim C7 as stated: the price call site in
`seller.main` batches with the constant 900, not 1000. On a list of 901
price records it produces two batches, while `divide` by 1000 would produce
one — so the constant 1000 is not used at every price-pushing call site. -/
theorem claim_C7_counterexample :
    (Seller.main_price_batches (List.replicate 901 samplePrice)).length = 2 ∧
    (Seller.divide (List.replicate 901 samplePrice) 1000).length = 1 := by
  have hrep : List.replicate 901 samplePrice = samplePrice :: List.replicate 900 samplePrice := by
    rw [show (901 : Nat) = 900 + 1 from rfl, List.replicate_succ]
  constructor
  · rw [Seller.main_price_batches, hrep,
      show (900 : Nat) = 899 + 1 from rfl, divide_cons]
    have hdrop : (List.replicate 900 samplePrice).drop 899 = [samplePrice] := by
      rw [List.drop_replicate]
      rfl
    rw [hdrop, divide_singleton]
    rfl
  · rw [hrep, show (1000 : Nat) = 999 + 1 from rfl, divide_cons]
    have hdrop : (List.replicate 900 samplePrice).drop 999 = [] := by
      rw [List.drop_replicate]
      rfl
    rw [hdrop, divide_nil]
    rfl

/-- Claim C7, amended: every batch at every call site that pushes prices or
stocks respects the stated limit (at most 1000 price records and 100 stock
records per batch for Ozon, at most 500 price records and 2000 stock records
for Yandex Market); however the price call site in `seller.main` batches
with the constant 900 rather than 1000 (its batches still respect the 1000
limit), while all other call sites use exactly the stated constants. -/
theorem claim_C7 :
    (∀ (p : List Seller.PriceEntry) (c : List Seller.PriceEntry),
      c ∈ Seller.upload_prices_batches p → c.length ≤ 1000) ∧
    (∀ (s : List Seller.StockEntry) (c : List Seller.StockEntry),
      c ∈ Seller.upload_stocks_batches s → c.length ≤ 100) ∧
    (∀ (s : List Seller.StockEntry) (c : List Seller.StockEntry),
      c ∈ Seller.main_stock_batches s → c.length ≤ 100) ∧
    (∀ (p : List Seller.PriceEntry) (c : List Seller.PriceEntry),
      c ∈ Seller.main_price_batches p → c.length ≤ 1000) ∧
    (∀ (p : List Market.PriceEntry) (c : List Market.PriceEntry),
      c ∈ Market.upload_prices_batches p → c.length ≤ 500) ∧
    (∀ (s : List Market.StockEntry) (c : List Market.StockEntry),
      c ∈ Market.upload_stocks_batches s → c.length ≤ 2000) ∧
    (∀ (s : List Market.StockEntry) (c : List Market.StockEntry),
      c ∈ Market.main_stock_batches s → c.length ≤ 2000) ∧
    (∀ p : List Seller.PriceEntry, Seller.upload_prices_batches p = Seller.divide p 1000) ∧
    (∀ p : List Seller.PriceEntry, Seller.main_price_batches p = Seller.divide p 900) := by
  refine ⟨?_, ?_, ?_, ?_, ?_, ?_, ?_, fun p => rfl, fun p => rfl⟩
  · intro p c hc
    exact (divide_chunk_bounds p 1000 c hc).2
  · intro s c hc
    exact (divide_chunk_bounds s 100 c hc).2
  · intro s c hc
    exact (divide_chunk_bounds s 100 c hc).2
  · intro p c hc
    exact Nat.le_trans (divide_chunk_bounds p 900 c hc).2 (by omega)
  · intro p c hc
    exact (divide_chunk_bounds p 500 c hc).2
  · intro s c hc
    exact (divide_chunk_bounds s 2000 c hc).2
  · intro s c hc
    exact (divide_chunk_bounds s 2000 c hc).2

/-- Witness for the amended claim C7 at a one-element price list: the single
batch produced by `seller.upload_prices` has length at most 1000. -/
theorem claim_C7_witness :
    [samplePrice] ∈ Seller.upload_prices_batches [samplePrice] ∧
    ([samplePrice] : List Seller.PriceEntry).length ≤ 1000 := by
  have hmem : [samplePrice] ∈ Seller.upload_prices_batches [samplePrice] := by
    rw [Seller.upload_prices_batches,
      show (1000 : Nat) = 999 + 1 from rfl, divide_singleton]
    exact List.mem_singleton.mpr rfl
  exact ⟨hmem, claim_C7.1 [samplePrice] [samplePrice] hmem⟩

/-! Helper lemmas about the matching loop of `create_stocks`. -/

theorem stocksLoop_spec {ε : Type} (norm : String → Option Int) (mk : String → Int → ε)
    (proj : ε → String) (hmk : ∀ c s, proj (mk c s) = c) :
    ∀ (ws : List Remnant) (o : List String) (m : List ε) (rem : List String),
      stocksLoop norm mk ws o = some (m, rem) →
      m.length + rem.length = o.length ∧
      rem.Sublist o ∧
      (m.map proj).Sublist (ws.map Remnant.code) ∧
      (∀ e ∈ m, proj e ∈ o) := by
  intro ws
  induction ws with
  | nil =>
    intro o m rem h
    simp only [stocksLoop, Option.some.injEq, Prod.mk.injEq] at h
    obtain ⟨rfl, rfl⟩ := h
    exact ⟨by simp, List.Sublist.refl o, by simp, by simp⟩
  | cons w ws ih =>
    intro o m rem h
    simp only [stocksLoop] at h
    split at h
    · rename_i hc
      split at h
      · exact absurd h (by simp)
      · rename_i stock hn
        split at h
        · exact absurd h (by simp)
        · rename_i entries rest hrec
          simp only [Option.some.injEq, Prod.mk.injEq] at h
          obtain ⟨rfl, rfl⟩ := h
          obtain ⟨hlen, hsub, hcodes, hmem⟩ := ih (o.erase w.code) entries rest hrec
          have herase : (o.erase w.code).length = o.length - 1 :=
            List.length_erase_of_mem hc
          have hpos : 0 < o.length := List.length_pos_of_mem hc
          refine ⟨?_, hsub.trans (List.erase_sublist _ _), ?_, ?_⟩
          · simp only [List.length_cons]
            omega
          · simp only [List.map_cons, hmk]
            exact List.Sublist.cons₂ w.code hcodes
          · intro e he
            rcases List.mem_cons.mp he with he1 | he2
            · rw [he1, hmk]
              exact hc
            · exact List.mem_of_mem_erase (hmem e he2)
    · rename_i hc
      obtain ⟨hlen, hsub, hcodes, hmem⟩ := ih o m rem h
      exact ⟨hlen, hsub, List.Sublist.cons w.code hcodes, hmem⟩

theorem stocksLoop_nodup {ε : Type} (norm : String → Option Int) (mk : String → Int → ε)
    (proj : ε → String) (hmk : ∀ c s, proj (mk c s) = c) :
    ∀ (ws : List Remnant) (o : List String) (m : List ε) (rem : List String),
      o.Nodup → stocksLoop norm mk ws o = some (m, rem) →
      (m.map proj ++ rem).Nodup := by
  intro ws
  induction ws with
  | nil =>
    intro o m rem hnd h
    simp only [stocksLoop, Option.some.injEq, Prod.mk.injEq] at h
    obtain ⟨rfl, rfl⟩ := h
    simpa using hnd
  | cons w ws ih =>
    intro o m rem hnd h
    simp only [stocksLoop] at h
    split at h
    · rename_i hc
      split at h
      · exact absurd h (by simp)
      · rename_i stock hn
        split at h
        · exact absurd h (by simp)
        · rename_i entries rest hrec
          simp only [Option.some.injEq, Prod.mk.injEq] at h
          obtain ⟨rfl, rfl⟩ := h
          have hih := ih (o.erase w.code) entries rest (hnd.erase _) hrec
          obtain ⟨-, hsub, -, hmem⟩ :=
            stocksLoop_spec norm mk proj hmk ws (o.erase w.code) entries rest hrec
          simp only [List.map_cons, hmk, List.cons_append]
          rw [List.nodup_cons]
          refine ⟨?_, hih⟩
          intro hmemc
          have hin : w.code ∈ o.erase w.code := by
            rcases List.mem_append.mp hmemc with hmem1 | hmem2
            · obtain ⟨e, he, heq⟩ := List.mem_map.mp hmem1
              exact heq ▸ hmem e he
            · exact hsub.subset hmem2
          exact absurd ((hnd.mem_erase_iff).mp hin).1 (by simp)
    · rename_i hc
      exact ih o m rem hnd h

theorem stocksLoop_rem_filter {ε : Type} (norm : String → Option Int)
    (mk : String → Int → ε) :
    ∀ (ws : List Remnant) (o : List String) (m : List ε) (rem : List String),
      o.Nodup → stocksLoop norm mk ws o = some (m, rem) →
      rem = o.filter (fun i => !decide (i ∈ ws.map Remnant.code)) := by
  intro ws
  induction ws with
  | nil =>
    intro o m rem hnd h
    simp only [stocksLoop, Option.some.injEq, Prod.mk.injEq] at h
    obtain ⟨rfl, rfl⟩ := h
    simp
  | cons w ws ih =>
    intro o m rem hnd h
    simp only [stocksLoop] at h
    split at h
    · rename_i hc
      split at h
      · exact absurd h (by simp)
      · rename_i stock hn
        split at h
        · exact absurd h (by simp)
        · rename_i entries rest hrec
          simp only [Option.some.injEq, Prod.mk.injEq] at h
          obtain ⟨rfl, rfl⟩ := h
          have hih := ih (o.erase w.code) entries rest (hnd.erase _) hrec
          rw [hih, hnd.erase_eq_filter w.code, List.filter_filter]
          apply List.filter_congr
          intro x hx
          by_cases hxc : x = w.code <;>
            by_cases hxm : x ∈ ws.map Remnant.code <;> simp [hxc, hxm]
    · rename_i hc
      have hih := ih o m rem hnd h
      rw [hih]
      apply List.filter_congr
      intro x hx
      have hxc : x ≠ w.code := fun hcontra => hc (hcontra ▸ hx)
      by_cases hxm : x ∈ ws.map Remnant.code <;> simp [hxc, hxm]

theorem seller_create_stocks_some (r : List Remnant) (o : List String)
    (s : List Seller.StockEntry) :
    Seller.create_stocks r o = some s →
    ∃ m rem,
      stocksLoop Seller.normalize_quantity
        (fun code stock => (⟨code, stock⟩ : Seller.StockEntry)) r o = some (m, rem) ∧
      s = m ++ rem.map (fun offer_id => (⟨offer_id, 0⟩ : Seller.StockEntry)) := by
  intro h
  simp only [Seller.create_stocks, Seller.create_stocks_run] at h
  split at h
  · simp at h
  · rename_i matched remaining hloop
    exact ⟨matched, remaining, hloop, (Option.some.inj h).symm⟩

theorem market_create_stocks_some (r : List Remnant) (o : List String)
    (w d : String) (s : List Market.StockEntry) :
    Market.create_stocks r o w d = some s →
    ∃ m rem,
      stocksLoop Market.normalize_quantity
        (fun code stock => (⟨code, w, [⟨stock, "FIT", d⟩]⟩ : Market.StockEntry)) r o =
        some (m, rem) ∧
      s = m ++ rem.map (fun offer_id =>
        (⟨offer_id, w, [⟨0, "FIT", d⟩]⟩ : Market.StockEntry)) := by
  intro h
  simp only [Market.create_stocks, Market.create_stocks_run] at h
  split at h
  · simp at h
  · rename_i matched remaining hloop
    exact ⟨matched, remaining, hloop, (Option.some.inj h).symm⟩

theorem seller_create_prices_run_length (r : List Remnant) (o : List String) :
    (Seller.create_prices_run r o).1.length = r.countP (fun w => decide (w.code ∈ o)) := by
  induction r with
  | nil => simp [Seller.create_prices_run]
  | cons w ws ih =>
    by_cases hc : w.code ∈ o <;>
      simp [Seller.create_prices_run, hc, List.countP_cons, ih]

/-- Claim C1, amended: in `create_stocks` the first occurrence of a
duplicated code wins — given duplicate-free `offer_ids` the emitted stock
list never repeats an `offer_id` — but `create_prices` does not remove
matched codes from `offer_ids`, so it emits one `PriceEntry` per remnant
record whose code is in `offer_ids`: a duplicated code yields one
`StockEntry` but as many `PriceEntry` records as it has occurrences. -/
theorem claim_C1 :
    (∀ (r : List Remnant) (o : List String) (s : List Seller.StockEntry),
      o.Nodup → Seller.create_stocks r o = some s →
      (s.map Seller.StockEntry.offer_id).Nodup) ∧
    (∀ (r : List Remnant) (o : List String),
      (Seller.create_prices r o).length = r.countP (fun w => decide (w.code ∈ o))) := by
  constructor
  · intro r o s hnd h
    obtain ⟨m, rem, hloop, rfl⟩ := seller_create_stocks_some r o s h
    have hmap : (m ++ rem.map (fun offer_id => (⟨offer_id, 0⟩ : Seller.StockEntry))).map
        Seller.StockEntry.offer_id = m.map Seller.StockEntry.offer_id ++ rem := by
      rw [List.map_append, List.map_map]
      congr 1
      exact List.map_id rem
    rw [hmap]
    exact stocksLoop_nodup Seller.normalize_quantity _ Seller.StockEntry.offer_id
      (fun _ _ => rfl) r o m rem hnd hloop
  · intro r o
    rw [Seller.create_prices]
    exact seller_create_prices_run_length r o

/-- Counterexample to claim C1 as stated: with remnants holding the code
`"A"` twice and `offer_ids = ["A"]`, the stock list keeps only the first
occurrence, but `create_prices` emits a `PriceEntry` for BOTH occurrences —
the later remnant with the same code is not ignored in the price list. -/
theorem claim_C1_counterexample :
    Seller.create_prices [⟨"A", "5", "100.00"⟩, ⟨"A", "7", "200.00"⟩] ["A"] =
      [⟨"UNKNOWN", "RUB", "A", "0", "100"⟩, ⟨"UNKNOWN", "RUB", "A", "0", "200"⟩] ∧
    (Seller.create_prices [⟨"A", "5", "100.00"⟩, ⟨"A", "7", "200.00"⟩] ["A"]).length ≠ 1 ∧
    Seller.create_stocks [⟨"A", "5", "100.00"⟩, ⟨"A", "7", "200.00"⟩] ["A"] =
      some [⟨"A", 5⟩] := by
  refine ⟨by decide, by decide, by decide⟩

/-- Witness for the amended claim C1 at the duplicate-code input. -/
theorem claim_C1_witness :
    (["A"] : List String).Nodup ∧
    Seller.create_stocks [⟨"A", "5", "100.00"⟩, ⟨"A", "7", "200.00"⟩] ["A"] =
      some [⟨"A", 5⟩] ∧
    (([⟨"A", 5⟩] : List Seller.StockEntry).map Seller.StockEntry.offer_id).Nodup :=
  ⟨by decide, by decide,
    claim_C1.1 [⟨"A", "5", "100.00"⟩, ⟨"A", "7", "200.00"⟩] ["A"] [⟨"A", 5⟩]
      (by decide) (by decide)⟩

/-- Claim C2: for duplicate-free `offer_ids`, the stock list built from a
fresh copy of `offer_ids` has one entry per offer id that is some remnant
code plus one per offer id matching no remnant code — equivalently its
length is exactly `offer_ids.length`, one `StockEntry` per downstream offer
id. Holds for both marketplace variants. -/
theorem claim_C2 :
    (∀ (r : List Remnant) (o : List String) (s : List Seller.StockEntry),
      o.Nodup → Seller.create_stocks r (list_copy o) = some s →
      s.length = (o.filter (fun i => decide (i ∈ r.map Remnant.code))).length +
        (o.filter (fun i => !decide (i ∈ r.map Remnant.code))).length ∧
      s.length = o.length) ∧
    (∀ (r : List Remnant) (o : List String) (w d : String) (s : List Market.StockEntry),
      o.Nodup → Market.create_stocks r (list_copy o) w d = some s →
      s.length = o.length) := by
  constructor
  · intro r o s hnd h
    obtain ⟨m, rem, hloop, rfl⟩ := seller_create_stocks_some r (list_copy o) s h
    obtain ⟨hlen, -, -, -⟩ := stocksLoop_spec Seller.normalize_quantity _
      Seller.StockEntry.offer_id (fun _ _ => rfl) r (list_copy o) m rem hloop
    have hslen : (m ++ rem.map (fun offer_id =>
        (⟨offer_id, 0⟩ : Seller.StockEntry))).length = o.length := by
      simp only [List.length_append, List.length_map]
      simpa [list_copy] using hlen
    refine ⟨?_, hslen⟩
    rw [hslen]
    exact List.length_eq_length_filter_add _
  · intro r o w d s hnd h
    obtain ⟨m, rem, hloop, rfl⟩ := market_create_stocks_some r (list_copy o) w d s h
    obtain ⟨hlen, -, -, -⟩ := stocksLoop_spec Market.normalize_quantity _
      Market.StockEntry.sku (fun _ _ => rfl) r (list_copy o) m rem hloop
    simp only [List.length_append, List.length_map]
    simpa [list_copy] using hlen

/-- Witness for claim C2 at the spec scenario: one remnant `"A"`,
offer ids `["A", "B"]`. -/
theorem claim_C2_witness :
    (["A", "B"] : List String).Nodup ∧
    Seller.create_stocks [⟨"A", ">10", "100.00"⟩] (list_copy ["A", "B"]) =
      some [⟨"A", 100⟩, ⟨"B", 0⟩] ∧
    (([⟨"A", 100⟩, ⟨"B", 0⟩] : List Seller.StockEntry).length =
      ((["A", "B"] : List String).filter (fun i =>
        decide (i ∈ ([⟨"A", ">10", "100.00"⟩] : List Remnant).map Remnant.code))).length +
      ((["A", "B"] : List String).filter (fun i =>
        !decide (i ∈ ([⟨"A", ">10", "100.00"⟩] : List Remnant).map Remnant.code))).length ∧
     ([⟨"A", 100⟩, ⟨"B", 0⟩] : List Seller.StockEntry).length =
      (["A", "B"] : List String).length) :=
  ⟨by decide, by decide,
    claim_C2.1 [⟨"A", ">10", "100.00"⟩] ["A", "B"] [⟨"A", 100⟩, ⟨"B", 0⟩]
      (by decide) (by decide)⟩

/-- Claim C3: the stock list decomposes as the matched entries followed by
the quantity-0 entries for unmatched offer ids; the matched entries follow
the input order of the remnants (their codes are a sublist of the remnant
codes), and the unmatched entries follow the iteration order of `offer_ids`
(they are a sublist of it — for duplicate-free `offer_ids`, exactly its
unmatched ids in order). Holds for both marketplace variants. -/
theorem claim_C3 :
    (∀ (r : List Remnant) (o : List String) (s : List Seller.StockEntry),
      Seller.create_stocks r o = some s →
      ∃ m rem,
        s = m ++ rem.map (fun offer_id => (⟨offer_id, 0⟩ : Seller.StockEntry)) ∧
        (m.map Seller.StockEntry.offer_id).Sublist (r.map Remnant.code) ∧
        rem.Sublist o ∧
        (o.Nodup → rem = o.filter (fun i => !decide (i ∈ r.map Remnant.code)))) ∧
    (∀ (r : List Remnant) (o : List String) (w d : String) (s : List Market.StockEntry),
      Market.create_stocks r o w d = some s →
      ∃ m rem,
        s = m ++ rem.map (fun offer_id =>
          (⟨offer_id, w, [⟨0, "FIT", d⟩]⟩ : Market.StockEntry)) ∧
        (m.map Market.StockEntry.sku).Sublist (r.map Remnant.code) ∧
        rem.Sublist o ∧
        (o.Nodup → rem = o.filter (fun i => !decide (i ∈ r.map Remnant.code)))) := by
  constructor
  · intro r o s h
    obtain ⟨m, rem, hloop, rfl⟩ := seller_create_stocks_some r o s h
    obtain ⟨-, hsub, hcodes, -⟩ := stocksLoop_spec Seller.normalize_quantity _
      Seller.StockEntry.offer_id (fun _ _ => rfl) r o m rem hloop
    exact ⟨m, rem, rfl, hcodes, hsub,
      fun hnd => stocksLoop_rem_filter Seller.normalize_quantity _ r o m rem hnd hloop⟩
  · intro r o w d s h
    obtain ⟨m, rem, hloop, rfl⟩ := market_create_stocks_some r o w d s h
    obtain ⟨-, hsub, hcodes, -⟩ := stocksLoop_spec Market.normalize_quantity _
      Market.StockEntry.sku (fun _ _ => rfl) r o m rem hloop
    exact ⟨m, rem, rfl, hcodes, hsub,
      fun hnd => stocksLoop_rem_filter Market.normalize_quantity _ r o m rem hnd hloop⟩

/-- Witness for claim C3 at the spec scenario: one remnant `"A"`,
offer ids `["A", "B"]`. -/
theorem claim_C3_witness :
    Seller.create_stocks [⟨"A", ">10", "100.00"⟩] ["A", "B"] =
      some [⟨"A", 100⟩, ⟨"B", 0⟩] ∧
    (∃ m rem,
      ([⟨"A", 100⟩, ⟨"B", 0⟩] : List Seller.StockEntry) =
        m ++ rem.map (fun offer_id => (⟨offer_id, 0⟩ : Seller.StockEntry)) ∧
      (m.map Seller.StockEntry.offer_id).Sublist
        (([⟨"A", ">10", "100.00"⟩] : List Remnant).map Remnant.code) ∧
      rem.Sublist ["A", "B"] ∧
      ((["A", "B"] : List String).Nodup → rem = (["A", "B"] : List String).filter
        (fun i => !decide (i ∈ ([⟨"A", ">10", "100.00"⟩] : List Remnant).map Remnant.code)))) :=
  ⟨by decide,
    claim_C3.1 [⟨"A", ">10", "100.00"⟩] ["A", "B"] [⟨"A", 100⟩, ⟨"B", 0⟩] (by decide)⟩

theorem stocksLoop_map {ε1 ε2 : Type} (norm : String → Option Int)
    (mk1 : String → Int → ε1) (mk2 : String → Int → ε2) (f : ε1 → ε2)
    (hf : ∀ c s, f (mk1 c s) = mk2 c s) :
    ∀ (ws : List Remnant) (o : List String),
      (stocksLoop norm mk1 ws o).map (fun p => (p.1.map f, p.2)) =
        stocksLoop norm mk2 ws o := by
  intro ws
  induction ws with
  | nil => intro o; simp [stocksLoop]
  | cons w ws ih =>
    intro o
    simp only [stocksLoop]
    by_cases hc : w.code ∈ o
    · rw [if_pos hc, if_pos hc]
      cases hn : norm w.quantity with
      | none => simp
      | some stock =>
        rw [← ih (o.erase w.code)]
        cases hrec : stocksLoop norm mk1 ws (o.erase w.code) with
        | none => simp
        | some pr =>
          obtain ⟨entries, rest⟩ := pr
          simp [hf]
    · rw [if_neg hc, if_neg hc]
      exact ih o

/-- Counterexample to claim C8 as stated: the output of the market variant
is not a function of remnants and offer ids alone. The `date` argument of
the embedding models the `datetime.utcnow()` reading captured inside
`market.create_stocks` (market.py line 263), which is not among the inputs
the claim fixes, so two runs of the same call can capture different
readings — and then the output sequences differ, as at this concrete
input with two different clock readings. -/
theorem claim_C8_counterexample :
    Market.create_stocks [⟨"A", "5", "100.00"⟩] ["A"] "W1" "2024-01-01T00:00:00Z" ≠
      Market.create_stocks [⟨"A", "5", "100.00"⟩] ["A"] "W1" "2024-01-01T00:00:01Z" := by
  decide

/-- Claim C8, amended: reconciliation is deterministic over its inputs with
one exception. The seller reconcilers and the market `create_prices` are
pure functions of remnants and `offer_ids`, so two runs on fresh copies of
the same `offer_ids` yield identical output sequences; the market
`create_stocks`, however, stamps each record with a `utcnow()` reading
captured at call time, so two of its runs yield identical sequences only up
to that timestamp: re-stamping the output of a run that captured `d1` with
`d2` gives exactly the output of a run that captured `d2`. -/
theorem claim_C8 :
    (∀ (r : List Remnant) (o : List String),
      Seller.create_stocks_run r (list_copy o) = Seller.create_stocks_run r (list_copy o) ∧
      Seller.create_prices_run r (list_copy o) = Seller.create_prices_run r (list_copy o) ∧
      Market.create_prices_run r (list_copy o) = Market.create_prices_run r (list_copy o) ∧
      Seller.create_stocks r (list_copy o) = Seller.create_stocks r o) ∧
    (∀ (r : List Remnant) (o : List String) (w d1 d2 : String),
      (Market.create_stocks r (list_copy o) w d1).map (List.map (Market.restamp d2)) =
        Market.create_stocks r (list_copy o) w d2) := by
  refine ⟨fun _ _ => ⟨rfl, rfl, rfl, rfl⟩, ?_⟩
  intro r o w d1 d2
  simp only [Market.create_stocks, Market.create_stocks_run]
  have hmap := stocksLoop_map Market.normalize_quantity
    (fun code stock => (⟨code, w, [⟨stock, "FIT", d1⟩]⟩ : Market.StockEntry))
    (fun code stock => (⟨code, w, [⟨stock, "FIT", d2⟩]⟩ : Market.StockEntry))
    (Market.restamp d2) (fun _ _ => rfl) r (list_copy o)
  cases hrec : stocksLoop Market.normalize_quantity
      (fun code stock => (⟨code, w, [⟨stock, "FIT", d1⟩]⟩ : Market.StockEntry))
      r (list_copy o) with
  | none =>
    rw [hrec] at hmap
    rw [← hmap]
    simp
  | some pr =>
    obtain ⟨m, rem⟩ := pr
    rw [hrec] at hmap
    rw [← hmap]
    simp [Market.restamp, List.map_map, Function.comp]

theorem seller_create_prices_run_state (r : List Remnant) (o : List String) :
    (Seller.create_prices_run r o).2 = o := by
  induction r with
  | nil => rfl
  | cons w ws ih =>
    by_cases hc : w.code ∈ o <;> simp [Seller.create_prices_run, hc, ih]

theorem market_create_prices_run_state (r : List Remnant) (o : List String) :
    (Market.create_prices_run r o).2 = o := by
  induction r with
  | nil => rfl
  | cons w ws ih =>
    by_cases hc : w.code ∈ o
    · simp only [Market.create_prices_run, hc, if_pos]
      cases hv : Py.py_int (Seller.price_conversion w.price) with
      | none => simp
      | some v =>
        cases hrec : Market.create_prices_run ws o with
        | mk fst snd =>
          rw [hrec] at ih
          dsimp only at ih
          cases fst <;> simp [hrec, ih]
    · simp [Market.create_prices_run, hc, ih]

/-- Claim C10: `create_prices` never modifies the `offer_ids` collection
passed to it, in either marketplace variant — the threaded state comes back
unchanged — in contrast to `create_stocks`, which removes matched codes
(shown here draining `["A"]` to `[]`). -/
theorem claim_C10 :
    (∀ (r : List Remnant) (o : List String),
      (Seller.create_prices_run r o).2 = o ∧ (Market.create_prices_run r o).2 = o) ∧
    (Seller.create_stocks_run [⟨"A", "5", "100.00"⟩] ["A"]).map Prod.snd = some [] :=
  ⟨fun r o => ⟨seller_create_prices_run_state r o, market_create_prices_run_state r o⟩,
    by decide⟩
